import Mathlib

/-!
Verification development for the rossa temporal-network scheduler and
simulator.  The definitions below are a shallow embedding of

  * the UPPAAL model `src/rnetwork/data/model_declarations.c`
    (buffers, `sending`, `reschedule`, `simulatePhase`,
    `verifyScheduler`, overflow flag), and
  * the C++ demonstration schedulers
    `demonstration/schedulers/{fixed,rnd_choice,capacity}` together with
    the temporal graph `demonstration/schedulers/tgraph`.

Machine integers are embedded as `ℕ`/`ℤ` with explicit `% 2 ^ 64`
truncation where the source relies on `uint64_t` wrap-around; the C
`double` computations (`sending`, `PortLoad`) are embedded as exact
rationals.  The reverse-Dijkstra distance and predecessor maps produced
by `boost::dijkstra_shortest_paths` are kept abstract: definitions take
them as parameters, and theorems assume exactly the structural facts the
algorithm guarantees (a predecessor is a forward successor or the vertex
itself).
-/

namespace Rossa

/-- Schedule choice returned by a scheduler: the port to store incoming
packets in and the phase to store them for (`ScheduleChoice` in
`model_declarations.c` and `ext.hpp`). -/
structure ScheduleChoice (P Q : ℕ) where
  port : Fin Q
  phase : Fin P
deriving DecidableEq

/-- A flow `(ingress, egress, amount)` (`Flow` in `ext.hpp`). -/
structure Flow (N : ℕ) where
  ingress : Fin N
  egress : Fin N
  amount : ℤ
deriving DecidableEq

/-- Static topology data: port owners, per-phase port targets, per-port
capacities and bandwidths (`Topology`/`Parameters` in `ext.hpp`; the
`PORT_OWNER`, `TOPOLOGY`, `PORT_CAPACITIES`, `PORT_BANDWIDTHS` tables in
`model_declarations.c`). -/
structure Topology (P N Q : ℕ) where
  owner : Fin Q → Fin N
  target : Fin P → Fin Q → Fin N
  capacity : Fin Q → ℤ
  bandwidth : Fin Q → ℤ

/-- Cyclic phase addition `(p + add) % num_phases`
(`TemporalGraph::phaseAdd`). -/
def phaseAdd {P : ℕ} (p : Fin P) (add : ℕ) : Fin P :=
  ⟨(p.val + add) % P, Nat.mod_lt _ p.pos⟩

/-- Vertices of the temporal graph (`tg::TVertex`): per-node collectors,
phase nodes and phase ports. -/
inductive TVertex (P N Q : ℕ) where
  | node (n : Fin N)
  | phaseNode (phase : Fin P) (n : Fin N)
  | phasePort (phase : Fin P) (port : Fin Q)
deriving DecidableEq

/-- Edge weights `(time, hop, delay)` (`tg::TEdge`). -/
structure TEdge where
  time : ℤ
  hop : ℤ
  delay : ℤ
deriving DecidableEq

/-- The edge relation of the temporal graph as built by
`TemporalGraph::createTransfers` and `createCollectorNodeEdges`:
transfer edges from a phase port to the phase node of its target in the
next phase, enqueue (wait) edges from a phase node into every copy of an
owned port with wait `1..P`, and collector edges into the per-node
collector. -/
inductive HasEdge {P N Q : ℕ} (T : Topology P N Q) :
    TVertex P N Q → TVertex P N Q → Prop where
  | transfer (phase : Fin P) (port : Fin Q) :
      HasEdge T (.phasePort phase port)
        (.phaseNode (phaseAdd phase 1) (T.target phase port))
  | enqueue (phase : Fin P) (port : Fin Q) (w : ℕ) (h1 : 1 ≤ w) (h2 : w ≤ P) :
      HasEdge T (.phaseNode phase (T.owner port)) (.phasePort (phaseAdd phase w) port)
  | collector (phase : Fin P) (n : Fin N) :
      HasEdge T (.phaseNode phase n) (.node n)

/-- Cost policy (`enum APPROACH`). -/
inductive APPROACH where
  | quickest
  | fewest_hops
deriving DecidableEq

/-- Scalar edge cost under the active policy (the `edgeCost` lambda in
`constructSolutionForEgress`, `constructSolutionForFlow` and
`computeToDestination`). -/
def edgeCost (approach : APPROACH) (edge : TEdge) : ℤ :=
  if approach = .fewest_hops then 10000 * edge.hop + edge.time
  else 10000 * edge.time + edge.hop

/-- A (phase, port) vertex payload (`tg::TPort`). -/
structure TPort (P Q : ℕ) where
  phase : Fin P
  port : Fin Q
deriving DecidableEq

/-- An entry of a stored candidate list (`PortInPhase`). -/
structure PortInPhase (P Q : ℕ) where
  port : Fin Q
  phase : Fin P
deriving DecidableEq

/-- The enqueue out-edges leading from `PhaseNode(phase, owner port)`
into the copies of `port`, one per wait time `1..P`, each of weight
`(waitTime, 0, 1)`, in insertion order (`createTransfers`, second
loop). -/
def portWaitEdges {P Q : ℕ} (phase : Fin P) (port : Fin Q) : List (TPort P Q × TEdge) :=
  (List.range P).map fun w0 =>
    (⟨phaseAdd phase (w0 + 1), port⟩, ⟨(w0 : ℤ) + 1, 0, 1⟩)

/-- The `PhasePort` successors of `PhaseNode(phase, node)` with their
edge weights, in the order `boost::out_edges` yields them for the
vertices and edges inserted by `TemporalGraph`: owned ports in ascending
port order, wait times `1..P` inner.  The collector edge is the only
other out-edge; callers discard it by the `std::get_if<tg::TPort>`
test. -/
def phasePortSuccessors {P N Q : ℕ} (T : Topology P N Q) (phase : Fin P) (node : Fin N) :
    List (TPort P Q × TEdge) :=
  ((List.finRange Q).filter fun p => T.owner p = node).flatMap fun p => portWaitEdges phase p

/-- A candidate list before sorting: every `PhasePort` successor paired
with `edgeCost(edge) + d[vNext]` where `d` is the distance map of the
reverse Dijkstra run for the egress under consideration (abstract
here). -/
def neighboursWithCost {P N Q : ℕ} (T : Topology P N Q) (d : TPort P Q → ℤ)
    (approach : APPROACH) (phase : Fin P) (node : Fin N) : List (TPort P Q × ℤ) :=
  (phasePortSuccessors T phase node).map fun pe => (pe.1, edgeCost approach pe.2 + d pe.1)

/-- The `std::stable_sort` of the candidates by ascending cost. -/
def sortedNeighbours {P N Q : ℕ} (T : Topology P N Q) (d : TPort P Q → ℤ)
    (approach : APPROACH) (phase : Fin P) (node : Fin N) : List (TPort P Q × ℤ) :=
  (neighboursWithCost T d approach phase node).mergeSort fun a b => a.2 ≤ b.2

/-- Greedy port-diverse selection (the `Take the k best` loop): walk the
sorted candidates, skip any candidate whose port was already used, and
stop once `numPaths` candidates are accepted.  `seen` mirrors
`seenPorts`/`portsUsed`; its length always equals the number of accepted
candidates so far, so the `options.size() >= numPaths` break test reads
`numPaths ≤ seen.length + 1` after an acceptance. -/
def greedySelect {P Q : ℕ} (numPaths : ℕ) (seen : List (Fin Q)) :
    List (TPort P Q × ℤ) → List (TPort P Q × ℤ)
  | [] => []
  | c :: rest =>
    if c.1.port ∈ seen then greedySelect numPaths seen rest
    else if numPaths ≤ seen.length + 1 then [c]
    else c :: greedySelect numPaths (c.1.port :: seen) rest

/-- The accepted candidates for `(phase, node)`, with their costs. -/
def selectedWithCost {P N Q : ℕ} (T : Topology P N Q) (d : TPort P Q → ℤ)
    (approach : APPROACH) (numPaths : ℕ) (phase : Fin P) (node : Fin N) :
    List (TPort P Q × ℤ) :=
  greedySelect numPaths [] (sortedNeighbours T d approach phase node)

/-- The choice table stored through `storeBest` by
`constructSolutionForEgress` (randomized variant) and
`constructSolutionForFlow` (capacity variant): for every
`(phase, node)`, the ordered list of `(port, phase)` options. -/
def constructSolutionForEgress {P N Q : ℕ} (T : Topology P N Q) (d : TPort P Q → ℤ)
    (approach : APPROACH) (numPaths : ℕ) : Fin P → Fin N → List (PortInPhase P Q) :=
  fun phase node =>
    (selectedWithCost T d approach numPaths phase node).map fun c => ⟨c.1.port, c.1.phase⟩

/-- Strongly universal hashing into `[0, m)` (`hash_bounded` in
`rnd_choice/graph_ext.cpp`), computed in 64-bit wrap-around
arithmetic: `(((a * x + b) >> 32) * m) >> 32`. -/
def hash_bounded (x m : ℕ) : ℕ :=
  (0x28ec0f222c79fb46 * x + 0x2179c594b7d54ca2) % 2 ^ 64 / 2 ^ 32 * m % 2 ^ 64 / 2 ^ 32

/-- The hash input `((phase << 16) + node) ^ random_num`, truncated to
32 bits by the `uint32_t` parameter conversion. -/
def rndHashInput {P N : ℕ} (phase : Fin P) (node : Fin N) (random_num : ℕ) : ℕ :=
  (((phase.val <<< 16) + node.val) ^^^ random_num) % 2 ^ 32

/-- `EgressSolution::getChoice` (randomized variant): hash-select an
entry of the stored list for `(phase, node)`.  `none` models the failing
`assert(cpy.size() > 0)` on an empty list; on a non-empty list the
default of `getD` is irrelevant because the hash index is in bounds. -/
def rndGetChoice {P N Q : ℕ} (sol : Fin P → Fin N → List (PortInPhase P Q))
    (random_num : ℕ) (phase : Fin P) (node : Fin N) : Option (ScheduleChoice P Q) :=
  let cpy := sol phase node
  if h : cpy ≠ [] then
    let choice :=
      cpy.getD (hash_bounded (rndHashInput phase node random_num) cpy.length) (cpy.head h)
    some ⟨choice.port, choice.phase⟩
  else none

/-- `PortLoad::getPackets`: packets buffered at `port` for `phase`,
summed over flows, on the host-side buffer mirror. -/
def getPackets {P Q F : ℕ} (buffers : Fin P → Fin Q → Fin F → ℤ)
    (port : Fin Q) (phase : Fin P) : ℤ :=
  ∑ f, buffers phase port f

/-- `PortLoad::getLoad`: buffered packets over capacity (exact rational
in place of the source's `double`). -/
def getLoad {P N Q F : ℕ} (T : Topology P N Q) (buffers : Fin P → Fin Q → Fin F → ℤ)
    (port : Fin Q) (phase : Fin P) : ℚ :=
  (getPackets buffers port phase : ℚ) / (T.capacity port : ℚ)

/-- `PortLoad::getTotalPortLoad`: load summed across phases. -/
def getTotalPortLoad {P N Q F : ℕ} (T : Topology P N Q)
    (buffers : Fin P → Fin Q → Fin F → ℤ) (port : Fin Q) : ℚ :=
  ∑ phase, getLoad T buffers port phase

/-- `FlowSolution::getChoice` (capacity variant): the first candidate in
stored order whose total port load is strictly below the threshold; if
none qualifies, the first candidate.  `none` models the out-of-bounds
`cpy[0]` on an empty list. -/
def capGetChoice {P N Q F : ℕ} (T : Topology P N Q)
    (sol : Fin P → Fin N → List (PortInPhase P Q))
    (buffers : Fin P → Fin Q → Fin F → ℤ) (treshold : ℚ)
    (phase : Fin P) (node : Fin N) : Option (ScheduleChoice P Q) :=
  let cpy := sol phase node
  if h : cpy ≠ [] then
    let best :=
      (cpy.find? fun pip => getTotalPortLoad T buffers pip.port < treshold).getD (cpy.head h)
    some ⟨best.port, best.phase⟩
  else none

/-- `findOwnedPort` (fixed variant): the first port owned by `owner`, or
port `0` when none exists. -/
def findOwnedPort {P N Q : ℕ} [NeZero Q] (T : Topology P N Q) (owner : Fin N) : Fin Q :=
  (((List.finRange Q).find? fun p => T.owner p = owner)).getD 0

/-- The entry `computeToDestination` stores for one `(i, from_node)`
pair (fixed variant): the default `(findOwnedPort, phaseAdd i 1)`,
overridden by the predecessor of `PhaseNode(i, from_node)` in the
reverse-Dijkstra tree whenever that predecessor is a `PhasePort`.
`none` models the failing `assert(!holds_alternative<TPhaseNode>(...))`
in the unreachable case, where Dijkstra leaves the predecessor equal to
the vertex itself. -/
def fixedChoice {P N Q : ℕ} [NeZero Q] (T : Topology P N Q)
    (pred : TVertex P N Q → TVertex P N Q) (i : Fin P) (from_node : Fin N) :
    Option (ScheduleChoice P Q) :=
  match pred (.phaseNode i from_node) with
  | .phaseNode _ _ => none
  | .phasePort ph p => some ⟨p, ph⟩
  | .node _ => some ⟨findOwnedPort T from_node, phaseAdd i 1⟩

/-- `verifyScheduler` from `model_declarations.c`: every
`(flow, phase, node)` query must return a port owned by the queried
node.  The `choice` argument stands for the prepared
`extGetScheduleChoice`. -/
def verifyScheduler {P N Q F : ℕ} (T : Topology P N Q)
    (choice : Fin P → Fin N → Fin F → ScheduleChoice P Q) : Bool :=
  (List.finRange F).all fun f =>
    (List.finRange P).all fun i =>
      (List.finRange N).all fun n => T.owner (choice i n f).port = n

/-- Round half away from zero: the semantics of C `round` on an exact
rational. -/
def cround (q : ℚ) : ℤ :=
  if q < 0 then -⌊-q + 1 / 2⌋ else ⌊q + 1 / 2⌋

/-- `portBuffered`: packets buffered at the port for the phase, summed
over all flows. -/
def portBuffered {P Q F : ℕ} (buf : Fin P → Fin Q → Fin F → ℤ)
    (i : Fin P) (p : Fin Q) : ℤ :=
  ∑ f, buf i p f

/-- `totalPortBuffered`: packets buffered at the port across phases. -/
def totalPortBuffered {P Q F : ℕ} (buf : Fin P → Fin Q → Fin F → ℤ) (p : Fin Q) : ℤ :=
  ∑ i, portBuffered buf i p

/-- `totalPacketsBuffered`: everything buffered anywhere. -/
def totalPacketsBuffered {P Q F : ℕ} (buf : Fin P → Fin Q → Fin F → ℤ) : ℤ :=
  ∑ p, totalPortBuffered buf p

/-- `sending`: the bandwidth-limited fair share of flow `f` at `(i, p)`,
`round(buf · (min(bandwidth, totalBuffered) / totalBuffered))` in exact
arithmetic, `0` when nothing is buffered at the port. -/
def sending {P N Q F : ℕ} (T : Topology P N Q) (buf : Fin P → Fin Q → Fin F → ℤ)
    (i : Fin P) (p : Fin Q) (f : Fin F) : ℤ :=
  let totalBuffered := portBuffered buf i p
  if totalBuffered = 0 then 0
  else
    cround ((buf i p f : ℚ) *
      ((min (T.bandwidth p) totalBuffered : ℤ) / (totalBuffered : ℚ)))

/-- `validPortState`: the port's total buffered packets are within its
capacity. -/
def validPortState {P N Q F : ℕ} (T : Topology P N Q)
    (buf : Fin P → Fin Q → Fin F → ℤ) (p : Fin Q) : Bool :=
  totalPortBuffered buf p ≤ T.capacity p

/-- Mutable simulator state (`gDidOverflow`, `gCurrentPhase`,
`gPortBuffers`). -/
structure SimState (P Q F : ℕ) where
  didOverflow : Bool
  currentPhase : Fin P
  buf : Fin P → Fin Q → Fin F → ℤ

/-- The `sent` scratch array of `simulatePhase`: the `sending` values on
the current phase row, `0` elsewhere (UPPAAL zero-initialises
locals). -/
def sentArr {P N Q F : ℕ} (T : Topology P N Q) (buf : Fin P → Fin Q → Fin F → ℤ)
    (i : Fin P) : Fin P → Fin Q → Fin F → ℤ :=
  fun j p f => if j = i then sending T buf i p f else 0

/-- The `recv` scratch array after the accumulation loop of
`simulatePhase`: everything sent during phase `i` whose receiving node
is not the flow's egress, accumulated at the scheduler's choice for that
receiving node.  Packets arriving at the egress leave the network and
are accumulated nowhere. -/
def recvArr {P N Q F : ℕ} (T : Topology P N Q) (flows : Fin F → Flow N)
    (choice : Fin P → Fin N → Fin F → ScheduleChoice P Q)
    (buf : Fin P → Fin Q → Fin F → ℤ) (i : Fin P) : Fin P → Fin Q → Fin F → ℤ :=
  fun j q f =>
    ∑ pSender ∈ Finset.univ.filter (fun pSender =>
        T.target i pSender ≠ (flows f).egress ∧
          choice i (T.target i pSender) f = (⟨q, j⟩ : ScheduleChoice P Q)),
      sending T buf i pSender f

/-- One `simulatePhase` step in its baseline instantiation (the
`<<GEN_SCHEDULE_TOGGLE>>` hook is empty there).  `choice` is the answer
function of the scheduler for this step's prepare window: compute
`sent`, accumulate `recv`, apply both deltas, inject ingress at the
scheduler's choice, run `updateValidState`, advance the phase. -/
def simulatePhase {P N Q F : ℕ} (T : Topology P N Q) (flows : Fin F → Flow N)
    (choice : Fin P → Fin N → Fin F → ScheduleChoice P Q)
    (s : SimState P Q F) : SimState P Q F :=
  let i := s.currentPhase
  let sent := sentArr T s.buf i
  let recv := recvArr T flows choice s.buf i
  let buf1 := fun j p f => s.buf j p f + (recv j p f - sent j p f)
  let buf2 := fun j p f =>
    buf1 j p f +
      (if choice i (flows f).ingress f = (⟨p, j⟩ : ScheduleChoice P Q) then (flows f).amount
       else 0)
  { didOverflow := s.didOverflow || (List.finRange Q).any fun p => !validPortState T buf2 p
    currentPhase := phaseAdd i 1
    buf := buf2 }

/-- Iterated simulation; `choices k` is the choice function the
scheduler prepared for step `k`. -/
def simulateSteps {P N Q F : ℕ} (T : Topology P N Q) (flows : Fin F → Flow N)
    (choices : ℕ → Fin P → Fin N → Fin F → ScheduleChoice P Q) :
    ℕ → SimState P Q F → SimState P Q F
  | 0, s => s
  | k + 1, s => simulatePhase T flows (choices k) (simulateSteps T flows choices k s)

/-- `reschedule(phase)`: per flow, migrate every `(phase, port)` bucket
to the scheduler's choice for `(phase, owner port)` through the staged
`deltas` array (`deltas[choice.phase][choice.port] += remaining;
deltas[phase][port] -= remaining`). -/
def reschedule {P N Q F : ℕ} (T : Topology P N Q)
    (choice : Fin P → Fin N → Fin F → ScheduleChoice P Q) (phase : Fin P)
    (buf : Fin P → Fin Q → Fin F → ℤ) : Fin P → Fin Q → Fin F → ℤ :=
  fun j q f =>
    buf j q f
      + (∑ port ∈ Finset.univ.filter (fun port =>
            choice phase (T.owner port) f = (⟨q, j⟩ : ScheduleChoice P Q)),
          buf phase port f)
      - (if j = phase then buf phase q f else 0)

/-- External scheduler state readable by `customGetScheduleChoice`
between host calls: the stored random draw (randomized variant) and the
buffer mirror filled by `extPushBuffers` (capacity variant). -/
structure ExtState (P Q F : ℕ) where
  random_num : ℕ
  buffers : Fin P → Fin Q → Fin F → ℤ

/-- Host-to-scheduler operations: `extPrepareChoices` stores a fresh
PRNG draw, `extPushBuffers` replaces the buffer mirror, and
`extGetScheduleChoice` queries read the state without writing it. -/
inductive ExtOp (P N Q F : ℕ) where
  | prepareChoices (draw : ℕ)
  | pushBuffers (b : Fin P → Fin Q → Fin F → ℤ)
  | getScheduleChoice (i : Fin P) (n : Fin N) (f : Fin F)

/-- Whether an operation is a pure query. -/
def ExtOp.isQuery {P N Q F : ℕ} : ExtOp P N Q F → Bool
  | .getScheduleChoice _ _ _ => true
  | _ => false

/-- Effect of one host call on the scheduler-visible state. -/
def extStep {P N Q F : ℕ} (s : ExtState P Q F) : ExtOp P N Q F → ExtState P Q F
  | .prepareChoices draw => { s with random_num := draw }
  | .pushBuffers b => { s with buffers := b }
  | .getScheduleChoice _ _ _ => s

/-- Run a sequence of host calls. -/
def runOps {P N Q F : ℕ} (s : ExtState P Q F) (ops : List (ExtOp P N Q F)) :
    ExtState P Q F :=
  ops.foldl extStep s

/-- The three scheduler variants. -/
inductive Variant where
  | fixed
  | randomized
  | capacityAware
deriving DecidableEq

/-- The answer each variant gives to `customGetScheduleChoice`, as a
function of the external state it reads: the fixed variant reads
neither component, the randomized variant reads the stored random draw,
the capacity variant reads the buffer mirror.  `sols` are the per-flow
stored candidate tables, `pred` the fixed variant's predecessor map,
`treshold` the capacity threshold. -/
def variantChoice {P N Q F : ℕ} [NeZero Q] (T : Topology P N Q)
    (pred : TVertex P N Q → TVertex P N Q)
    (sols : Fin F → Fin P → Fin N → List (PortInPhase P Q)) (treshold : ℚ) :
    Variant → ExtState P Q F → Fin P → Fin N → Fin F → Option (ScheduleChoice P Q)
  | .fixed, _, i, n, _ => fixedChoice T pred i n
  | .randomized, s, i, n, f => rndGetChoice (sols f) s.random_num i n
  | .capacityAware, s, i, n, f => capGetChoice T (sols f) s.buffers treshold i n

/-- The 4-phase, 5-node, 10-port demonstration topology
(`fromTestData` in `temporal_graph.cpp`): node `k` owns ports `2k` and
`2k + 1`, the targets follow the `TOPOLOGY` table. -/
def testTopology : Topology 4 5 10 where
  owner := fun p => ⟨p.val / 2, by omega⟩
  target := ![![1, 3, 2, 4, 3, 0, 4, 1, 0, 2],
              ![2, 4, 3, 0, 4, 1, 0, 2, 1, 3],
              ![3, 1, 4, 2, 0, 3, 1, 4, 2, 0],
              ![4, 2, 0, 3, 1, 4, 2, 0, 3, 1]]
  capacity := fun _ => 100
  bandwidth := fun _ => 2

/-- A one-phase, one-node, one-port topology with unit bandwidth, used
to evaluate the embedded operations on concrete inputs. -/
def unitTopology : Topology 1 1 1 where
  owner := fun _ => 0
  target := fun _ _ => 0
  capacity := fun _ => 10
  bandwidth := fun _ => 1

/-- The predecessor map sending every phase node to its collector: a
possible shape of the reverse-Dijkstra predecessor map over the temporal
graph (every image is a forward successor). -/
def collectorPred {P N Q : ℕ} : TVertex P N Q → TVertex P N Q
  | .phaseNode _ n => .node n
  | v => v

/-- A single self-flow on the unit topology, for concrete runs. -/
def unitFlows : Fin 1 → Flow 1 := fun _ => ⟨0, 0, 1⟩

/-- A concrete simulator state on the unit topology with the overflow
flag raised. -/
def unitState : SimState 1 1 1 := ⟨true, 0, fun _ _ _ => 0⟩

/-- The only possible choice function on the unit topology. -/
def unitChoice : Fin 1 → Fin 1 → Fin 1 → ScheduleChoice 1 1 := fun _ _ _ => ⟨0, 0⟩

/-- A concrete singleton candidate table on the unit topology. -/
def unitSol : Fin 1 → Fin 1 → List (PortInPhase 1 1) := fun _ _ => [⟨0, 0⟩]

/-! Helper lemmas. -/

theorem hash_bounded_lt (x m : ℕ) (hm : 0 < m) (hm32 : m < 2 ^ 32) :
    hash_bounded x m < m := by
  unfold hash_bounded
  set A := (0x28ec0f222c79fb46 * x + 0x2179c594b7d54ca2) % 2 ^ 64 with hA
  have hA64 : A < 2 ^ 64 := Nat.mod_lt _ (by norm_num)
  have hh : A / 2 ^ 32 < 2 ^ 32 := by
    apply Nat.div_lt_of_lt_mul
    calc A < 2 ^ 64 := hA64
    _ = 2 ^ 32 * 2 ^ 32 := by norm_num
  have hlt : A / 2 ^ 32 * m < 2 ^ 32 * m := Nat.mul_lt_mul_of_lt_of_le hh (le_refl m) hm
  have hmul : A / 2 ^ 32 * m < 2 ^ 64 := by
    calc A / 2 ^ 32 * m < 2 ^ 32 * m := hlt
    _ ≤ 2 ^ 32 * 2 ^ 32 := Nat.mul_le_mul_left _ (le_of_lt hm32)
    _ = 2 ^ 64 := by norm_num
  rw [Nat.mod_eq_of_lt hmul, Nat.div_lt_iff_lt_mul (by norm_num : (0 : ℕ) < 2 ^ 32)]
  calc A / 2 ^ 32 * m < 2 ^ 32 * m := hlt
  _ = m * 2 ^ 32 := Nat.mul_comm _ _

theorem didOverflow_simulatePhase {P N Q F : ℕ} (T : Topology P N Q)
    (flows : Fin F → Flow N) (choice : Fin P → Fin N → Fin F → ScheduleChoice P Q)
    (s : SimState P Q F) (h : s.didOverflow = true) :
    (simulatePhase T flows choice s).didOverflow = true := by
  simp [simulatePhase, h]

/-! Claim theorems. -/

/-- C10: for every 32-bit input `x` and list size `1 ≤ m < 2 ^ 32`,
`hash_bounded x m < m`, hence on any non-empty stored candidate list the
randomized variant's index is in bounds and
`EgressSolution::getChoice` returns the genuinely indexed element. -/
theorem hash_bounded_in_range {P N Q : ℕ}
    (sol : Fin P → Fin N → List (PortInPhase P Q)) (r : ℕ) (phase : Fin P) (node : Fin N)
    (hne : sol phase node ≠ []) (hlen : (sol phase node).length < 2 ^ 32) :
    (∀ x m : ℕ, 1 ≤ m → m < 2 ^ 32 → hash_bounded x m < m) ∧
      hash_bounded (rndHashInput phase node r) (sol phase node).length <
        (sol phase node).length ∧
      rndGetChoice sol r phase node =
        ((sol phase node)[hash_bounded (rndHashInput phase node r)
            (sol phase node).length]?).map fun c => ⟨c.port, c.phase⟩ := by
  have hpos : 0 < (sol phase node).length := List.length_pos.mpr hne
  have hidx : hash_bounded (rndHashInput phase node r) (sol phase node).length <
      (sol phase node).length :=
    hash_bounded_lt _ _ hpos hlen
  refine ⟨fun x m h1 h2 => hash_bounded_lt x m h1 h2, hidx, ?_⟩
  rw [rndGetChoice]
  simp only [dif_pos hne]
  rw [List.getD_eq_getElem?_getD, List.getElem?_eq_getElem hidx]
  simp

/-- C10 witness: a concrete hash stays in range on a singleton list. -/
theorem hash_bounded_in_range_witness :
    unitSol 0 0 ≠ [] ∧ (unitSol 0 0).length < 2 ^ 32 ∧
      ((∀ x m : ℕ, 1 ≤ m → m < 2 ^ 32 → hash_bounded x m < m) ∧
        hash_bounded (rndHashInput (0 : Fin 1) (0 : Fin 1) 7) (unitSol 0 0).length <
          (unitSol 0 0).length ∧
        rndGetChoice unitSol 7 0 0 =
          ((unitSol 0 0)[hash_bounded (rndHashInput (0 : Fin 1) (0 : Fin 1) 7)
              (unitSol 0 0).length]?).map fun c => ⟨c.port, c.phase⟩) :=
  ⟨by simp [unitSol], by simp [unitSol],
    hash_bounded_in_range unitSol 7 0 0 (by simp [unitSol]) (by simp [unitSol])⟩

/-- C9: the overflow flag is monotone within a run: once
`gDidOverflow` is true it stays true across any number of further
`simulatePhase` steps, whatever choices their prepare windows yield. -/
theorem didOverflow_monotone {P N Q F : ℕ} (T : Topology P N Q) (flows : Fin F → Flow N)
    (choices : ℕ → Fin P → Fin N → Fin F → ScheduleChoice P Q) (s : SimState P Q F)
    (h : s.didOverflow = true) (k : ℕ) :
    (simulateSteps T flows choices k s).didOverflow = true := by
  induction k with
  | zero => exact h
  | succ k ih => exact didOverflow_simulatePhase T flows (choices k) _ ih

/-- C9 witness: the flag survives three steps on the unit topology. -/
theorem didOverflow_monotone_witness :
    unitState.didOverflow = true ∧
      (simulateSteps unitTopology unitFlows (fun _ => unitChoice) 3 unitState).didOverflow =
        true :=
  ⟨rfl, didOverflow_monotone unitTopology unitFlows (fun _ => unitChoice) unitState rfl 3⟩

theorem runOps_queries_eq {P N Q F : ℕ} (s : ExtState P Q F) (ops : List (ExtOp P N Q F))
    (h : ∀ op ∈ ops, op.isQuery = true) : runOps s ops = s := by
  induction ops generalizing s with
  | nil => rfl
  | cons op rest ih =>
    have hop : op.isQuery = true := h op (List.mem_cons_self op rest)
    have hs : extStep s op = s := by
      cases op with
      | prepareChoices draw => simp [ExtOp.isQuery] at hop
      | pushBuffers b => simp [ExtOp.isQuery] at hop
      | getScheduleChoice i n f => rfl
    calc runOps s (op :: rest) = runOps (extStep s op) rest := rfl
    _ = runOps s rest := by rw [hs]
    _ = s := ih s fun o ho => h o (List.mem_cons_of_mem op ho)

/-- C4: within one prepare window — after any prefix of host calls,
followed by query-only operations (no `extPrepareChoices`, no
`extPushBuffers`) — every scheduler variant's
`customGetScheduleChoice` is a pure function: a query issued later in
the window returns the same answer as the same query issued at the start
of the window. -/
theorem choice_pure_in_window {P N Q F : ℕ} [NeZero Q] (T : Topology P N Q)
    (pred : TVertex P N Q → TVertex P N Q)
    (sols : Fin F → Fin P → Fin N → List (PortInPhase P Q)) (treshold : ℚ)
    (v : Variant) (s : ExtState P Q F) (pre mid : List (ExtOp P N Q F))
    (hmid : ∀ op ∈ mid, op.isQuery = true) (i : Fin P) (n : Fin N) (f : Fin F) :
    variantChoice T pred sols treshold v (runOps (runOps s pre) mid) i n f =
      variantChoice T pred sols treshold v (runOps s pre) i n f := by
  rw [runOps_queries_eq (runOps s pre) mid hmid]

/-- C4 witness: a concrete query-only window on the unit topology. -/
theorem choice_pure_in_window_witness :
    (∀ op ∈ ([ExtOp.getScheduleChoice 0 0 0] : List (ExtOp 1 1 1 1)), op.isQuery = true) ∧
      variantChoice unitTopology collectorPred (fun _ => unitSol) 1 .randomized
          (runOps (runOps (⟨0, fun _ _ _ => 0⟩ : ExtState 1 1 1) ([] : List (ExtOp 1 1 1 1)))
            ([ExtOp.getScheduleChoice 0 0 0] : List (ExtOp 1 1 1 1))) 0 0 0 =
        variantChoice unitTopology collectorPred (fun _ => unitSol) 1 .randomized
          (runOps (⟨0, fun _ _ _ => 0⟩ : ExtState 1 1 1) ([] : List (ExtOp 1 1 1 1))) 0 0 0 :=
  ⟨by simp [ExtOp.isQuery],
    choice_pure_in_window unitTopology collectorPred (fun _ => unitSol) 1 .randomized
      (⟨0, fun _ _ _ => 0⟩ : ExtState 1 1 1) ([] : List (ExtOp 1 1 1 1))
      ([ExtOp.getScheduleChoice 0 0 0] : List (ExtOp 1 1 1 1))
      (by simp [ExtOp.isQuery]) 0 0 0⟩

theorem find?_first {α : Type} (p : α → Bool) :
    ∀ (l : List α) (k : ℕ) (x : α), l[k]? = some x → p x = true →
      (∀ (j : ℕ) (y : α), j < k → l[j]? = some y → p y = false) → l.find? p = some x := by
  intro l
  induction l with
  | nil => intro k x hget; simp at hget
  | cons a tl ih =>
    intro k x hget hpx hbefore
    cases k with
    | zero =>
      have hxa : x = a := by simpa using hget.symm
      subst hxa
      exact List.find?_cons_of_pos tl hpx
    | succ k =>
      have hpa : p a = false := hbefore 0 a (Nat.succ_pos k) (by simp)
      rw [List.find?_cons_of_neg tl (by simp [hpa])]
      refine ih k x (by simpa using hget) hpx fun j y hj hy => ?_
      exact hbefore (j + 1) y (Nat.succ_lt_succ hj) (by simpa using hy)

/-- C7: the capacity-aware variant's `FlowSolution::getChoice` on a
non-empty stored candidate list returns the first candidate in stored
order whose `totalPortLoad` is strictly below the threshold, and the
first (lowest-cost) candidate when no candidate's load is below the
threshold. -/
theorem capacity_threshold_selection {P N Q F : ℕ} (T : Topology P N Q)
    (sol : Fin P → Fin N → List (PortInPhase P Q))
    (buffers : Fin P → Fin Q → Fin F → ℤ) (treshold : ℚ) (phase : Fin P) (node : Fin N)
    (hne : sol phase node ≠ []) :
    ((∀ pip ∈ sol phase node, ¬ getTotalPortLoad T buffers pip.port < treshold) →
        capGetChoice T sol buffers treshold phase node =
          (sol phase node).head?.map fun pip => ⟨pip.port, pip.phase⟩) ∧
      ∀ (k : ℕ) (pip : PortInPhase P Q), (sol phase node)[k]? = some pip →
        getTotalPortLoad T buffers pip.port < treshold →
        (∀ (j : ℕ) (q : PortInPhase P Q), j < k → (sol phase node)[j]? = some q →
            ¬ getTotalPortLoad T buffers q.port < treshold) →
        capGetChoice T sol buffers treshold phase node = some ⟨pip.port, pip.phase⟩ := by
  constructor
  · intro hall
    have hfind : (sol phase node).find?
        (fun pip => getTotalPortLoad T buffers pip.port < treshold) = none := by
      apply List.find?_eq_none.mpr
      intro x hx
      simpa using hall x hx
    rw [capGetChoice]
    simp only [dif_pos hne, hfind, Option.getD_none]
    rw [List.head?_eq_head hne]
    rfl
  · intro k pip hget hload hbefore
    have hfind : (sol phase node).find?
        (fun pip => getTotalPortLoad T buffers pip.port < treshold) = some pip := by
      apply find?_first _ (sol phase node) k pip hget (by simpa using hload)
      intro j y hj hy
      simpa using hbefore j y hj hy
    rw [capGetChoice]
    simp only [dif_pos hne, hfind, Option.getD_some]

/-- C7 witness: on a singleton candidate list with empty buffers and
threshold `1`, the first candidate qualifies and is returned. -/
theorem capacity_threshold_selection_witness :
    unitSol 0 0 ≠ [] ∧ (unitSol 0 0)[0]? = some ⟨0, 0⟩ ∧
      getTotalPortLoad unitTopology (fun _ _ _ => (0 : ℤ) : Fin 1 → Fin 1 → Fin 1 → ℤ) (0 : Fin 1) < 1 ∧
      capGetChoice unitTopology unitSol (fun _ _ _ => (0 : ℤ) : Fin 1 → Fin 1 → Fin 1 → ℤ) 1 0 0 =
        some ⟨(0 : Fin 1), (0 : Fin 1)⟩ :=
  have hne : unitSol 0 0 ≠ [] := by simp [unitSol]
  have hget : (unitSol 0 0)[0]? = some ⟨0, 0⟩ := by simp [unitSol]
  have hload : getTotalPortLoad unitTopology
      (fun _ _ _ => (0 : ℤ) : Fin 1 → Fin 1 → Fin 1 → ℤ) (0 : Fin 1) < 1 := by
    norm_num [getTotalPortLoad, getLoad, getPackets]
  ⟨hne, hget, hload,
    (capacity_threshold_selection unitTopology unitSol
        (fun _ _ _ => (0 : ℤ) : Fin 1 → Fin 1 → Fin 1 → ℤ) 1 0 0 hne).2
      0 ⟨0, 0⟩ hget hload (fun j q hj _ => absurd hj (Nat.not_lt_zero j))⟩

/-- C8: with scheduler choices fixed (one prepare window) and under the
ownership postcondition that `reschedule` itself asserts
(`assert(PORT_OWNER[choice.port] == PORT_OWNER[port])`), running
`reschedule(phase)` twice in succession produces the same buffer
contents as running it once. -/
theorem reschedule_idempotent {P N Q F : ℕ} (T : Topology P N Q)
    (choice : Fin P → Fin N → Fin F → ScheduleChoice P Q)
    (hOwn : ∀ (i : Fin P) (n : Fin N) (f : Fin F), T.owner ((choice i n f).port) = n)
    (phase : Fin P) (buf : Fin P → Fin Q → Fin F → ℤ) :
    reschedule T choice phase (reschedule T choice phase buf) =
      reschedule T choice phase buf := by
  funext j q f
  have key2 : ∀ (p' p : Fin Q) (jj : Fin P),
      choice phase (T.owner p') f = (⟨p, jj⟩ : ScheduleChoice P Q) →
        choice phase (T.owner p) f = (⟨p, jj⟩ : ScheduleChoice P Q) := by
    intro p' p jj h
    have h1 := hOwn phase (T.owner p') f
    rw [h] at h1
    have hp : T.owner p = T.owner p' := h1
    rw [hp, h]
  have hRrow : ∀ pp : Fin Q, reschedule T choice phase buf phase pp f =
      ∑ p' ∈ Finset.univ.filter (fun p' =>
          choice phase (T.owner p') f = (⟨pp, phase⟩ : ScheduleChoice P Q)),
        buf phase p' f := by
    intro pp
    simp only [reschedule, if_pos rfl]
    simp
  set R := reschedule T choice phase buf with hR
  simp only [reschedule]
  suffices hS : (∑ p ∈ Finset.univ.filter (fun p =>
      choice phase (T.owner p) f = (⟨q, j⟩ : ScheduleChoice P Q)), R phase p f) =
      if j = phase then R phase q f else 0 by
    rw [hS]; ring
  by_cases hj : j = phase
  · rw [if_pos hj, hj]
    by_cases hq : choice phase (T.owner q) f = (⟨q, phase⟩ : ScheduleChoice P Q)
    · apply Finset.sum_eq_single_of_mem q (by simp [hq])
      intro p hp hpq
      have hcp : choice phase (T.owner p) f = (⟨q, phase⟩ : ScheduleChoice P Q) :=
        (Finset.mem_filter.mp hp).2
      rw [hRrow p]
      have hempty : Finset.univ.filter (fun p' =>
          choice phase (T.owner p') f = (⟨p, phase⟩ : ScheduleChoice P Q)) = ∅ := by
        apply Finset.filter_eq_empty_iff.mpr
        intro p' _ hp'
        have hcpp := key2 p' p phase hp'
        have hmk : (⟨p, phase⟩ : ScheduleChoice P Q) = (⟨q, phase⟩ : ScheduleChoice P Q) := by
          rw [← hcpp, hcp]
        exact hpq (by simpa [ScheduleChoice.mk.injEq] using hmk)
      rw [hempty, Finset.sum_empty]
    · have hempty1 : Finset.univ.filter (fun p =>
          choice phase (T.owner p) f = (⟨q, phase⟩ : ScheduleChoice P Q)) = ∅ := by
        apply Finset.filter_eq_empty_iff.mpr
        intro p _ hp
        exact hq (key2 p q phase hp)
      rw [hempty1, Finset.sum_empty, hRrow q, hempty1, Finset.sum_empty]
  · rw [if_neg hj]
    apply Finset.sum_eq_zero
    intro p hp
    have hcp : choice phase (T.owner p) f = (⟨q, j⟩ : ScheduleChoice P Q) :=
      (Finset.mem_filter.mp hp).2
    rw [hRrow p]
    have hempty : Finset.univ.filter (fun p' =>
        choice phase (T.owner p') f = (⟨p, phase⟩ : ScheduleChoice P Q)) = ∅ := by
      apply Finset.filter_eq_empty_iff.mpr
      intro p' _ hp'
      have hcpp := key2 p' p phase hp'
      have hmk : (⟨q, j⟩ : ScheduleChoice P Q) = (⟨p, phase⟩ : ScheduleChoice P Q) := by
        rw [← hcp, hcpp]
      have hjp : j = phase := ((ScheduleChoice.mk.injEq _ _ _ _).mp hmk).2
      exact absurd hjp hj
    rw [hempty, Finset.sum_empty]

/-- C8 witness: a double reschedule on the unit topology. -/
theorem reschedule_idempotent_witness :
    (∀ (i : Fin 1) (n : Fin 1) (f : Fin 1),
        unitTopology.owner ((unitChoice i n f).port) = n) ∧
      reschedule unitTopology unitChoice 0
          (reschedule unitTopology unitChoice 0 (fun _ _ _ => 5)) =
        reschedule unitTopology unitChoice 0 (fun _ _ _ => 5) :=
  ⟨by decide, reschedule_idempotent unitTopology unitChoice (by decide) 0 (fun _ _ _ => 5)⟩

theorem greedySelect_sublist {P Q : ℕ} (K : ℕ) :
    ∀ (l : List (TPort P Q × ℤ)) (seen : List (Fin Q)), (greedySelect K seen l).Sublist l := by
  intro l
  induction l with
  | nil => intro seen; simp [greedySelect]
  | cons c rest ih =>
    intro seen
    rw [greedySelect]
    by_cases h1 : c.1.port ∈ seen
    · rw [if_pos h1]; exact (ih seen).cons c
    · rw [if_neg h1]
      by_cases h2 : K ≤ seen.length + 1
      · rw [if_pos h2]; exact (List.nil_sublist rest).cons₂ c
      · rw [if_neg h2]; exact (ih (c.1.port :: seen)).cons₂ c

theorem greedySelect_ports {P Q : ℕ} (K : ℕ) :
    ∀ (l : List (TPort P Q × ℤ)) (seen : List (Fin Q)),
      ((greedySelect K seen l).map fun c => c.1.port).Nodup ∧
        ∀ c ∈ greedySelect K seen l, c.1.port ∉ seen := by
  intro l
  induction l with
  | nil => intro seen; simp [greedySelect]
  | cons c rest ih =>
    intro seen
    rw [greedySelect]
    by_cases h1 : c.1.port ∈ seen
    · rw [if_pos h1]; exact ih seen
    · rw [if_neg h1]
      by_cases h2 : K ≤ seen.length + 1
      · rw [if_pos h2]
        refine ⟨by simp, ?_⟩
        intro x hx
        have hxc : x = c := by simpa using hx
        rw [hxc]; exact h1
      · rw [if_neg h2]
        obtain ⟨ihn, ihs⟩ := ih (c.1.port :: seen)
        constructor
        · simp only [List.map_cons, List.nodup_cons]
          refine ⟨?_, ihn⟩
          intro hmem
          obtain ⟨x, hx, hxp⟩ := List.mem_map.mp hmem
          have hnot := ihs x hx
          rw [hxp] at hnot
          exact hnot (List.mem_cons_self _ _)
        · intro x hx
          rcases List.mem_cons.mp hx with h | h
          · rw [h]; exact h1
          · have hnot := ihs x h
            exact fun hmem => hnot (List.mem_cons_of_mem _ hmem)

theorem card_insert_sdiff {α : Type} [DecidableEq α] (a : α) (A S : Finset α)
    (ha : a ∉ S) : (insert a A \ S).card = (A \ insert a S).card + 1 := by
  rw [Finset.insert_sdiff_of_not_mem A ha]
  have h1 : A \ insert a S = (A \ S).erase a := by
    ext x
    simp only [Finset.mem_sdiff, Finset.mem_erase, Finset.mem_insert]
    tauto
  rw [h1]
  by_cases hb : a ∈ A \ S
  · rw [Finset.insert_eq_self.mpr hb]
    exact (Finset.card_erase_add_one hb).symm
  · rw [Finset.card_insert_of_not_mem hb, Finset.erase_eq_of_not_mem hb]

theorem greedySelect_length {P Q : ℕ} (K : ℕ) (hK : 0 < K) :
    ∀ (l : List (TPort P Q × ℤ)) (seen : List (Fin Q)), seen.length < K →
      (greedySelect K seen l).length =
        min (K - seen.length) (((l.map fun c => c.1.port).toFinset \ seen.toFinset).card) := by
  intro l
  induction l with
  | nil => intro seen hs; simp [greedySelect]
  | cons c rest ih =>
    intro seen hs
    rw [greedySelect]
    by_cases h1 : c.1.port ∈ seen
    · rw [if_pos h1, ih seen hs]
      have hset : ((c :: rest).map fun x => x.1.port).toFinset \ seen.toFinset =
          ((rest.map fun x => x.1.port).toFinset \ seen.toFinset) := by
        simp only [List.map_cons, List.toFinset_cons]
        exact Finset.insert_sdiff_of_mem _ (List.mem_toFinset.mpr h1)
      rw [hset]
    · rw [if_neg h1]
      by_cases h2 : K ≤ seen.length + 1
      · rw [if_pos h2]
        have hmem : c.1.port ∈ ((c :: rest).map fun x => x.1.port).toFinset \ seen.toFinset := by
          rw [Finset.mem_sdiff, List.mem_toFinset, List.mem_toFinset]
          exact ⟨List.mem_map.mpr ⟨c, List.mem_cons_self c rest, rfl⟩, h1⟩
        have hcard : 0 < (((c :: rest).map fun x => x.1.port).toFinset \ seen.toFinset).card :=
          Finset.card_pos.mpr ⟨_, hmem⟩
        simp only [List.length_singleton]
        omega
      · rw [if_neg h2]
        have hs' : (c.1.port :: seen).length < K := by
          simp only [List.length_cons]; omega
        rw [List.length_cons, ih (c.1.port :: seen) hs']
        have hins := card_insert_sdiff c.1.port ((rest.map fun x => x.1.port).toFinset)
          seen.toFinset (fun hmm => h1 (List.mem_toFinset.mp hmm))
        simp only [List.map_cons, List.toFinset_cons] at hins ⊢
        rw [hins]
        simp only [List.length_cons] at hs' ⊢
        omega

theorem greedySelect_ne_nil {P Q : ℕ} (K : ℕ) (hK : 1 ≤ K) (l : List (TPort P Q × ℤ))
    (hl : l ≠ []) : greedySelect K [] l ≠ [] := by
  cases l with
  | nil => exact absurd rfl hl
  | cons c rest =>
    rw [greedySelect]
    simp only [List.not_mem_nil, if_false]
    by_cases h2 : K ≤ ([] : List (Fin Q)).length + 1
    · rw [if_pos h2]; simp
    · rw [if_neg h2]; simp

theorem sortedNeighbours_perm {P N Q : ℕ} (T : Topology P N Q) (d : TPort P Q → ℤ)
    (approach : APPROACH) (phase : Fin P) (node : Fin N) :
    (sortedNeighbours T d approach phase node).Perm (neighboursWithCost T d approach phase node) :=
  List.mergeSort_perm _ _

theorem sortedNeighbours_sorted {P N Q : ℕ} (T : Topology P N Q) (d : TPort P Q → ℤ)
    (approach : APPROACH) (phase : Fin P) (node : Fin N) :
    (sortedNeighbours T d approach phase node).Pairwise fun a b => a.2 ≤ b.2 := by
  have h := @List.sorted_mergeSort (TPort P Q × ℤ)
    (fun a b => decide (a.2 ≤ b.2))
    (fun a b c => by simp only [decide_eq_true_eq]; omega)
    (fun a b => by simp only [Bool.or_eq_true, decide_eq_true_eq]; omega)
    (neighboursWithCost T d approach phase node)
  simpa [sortedNeighbours] using h

theorem mem_portWaitEdges_port {P Q : ℕ} {phase : Fin P} {port : Fin Q}
    {pe : TPort P Q × TEdge} (h : pe ∈ portWaitEdges phase port) : pe.1.port = port := by
  simp only [portWaitEdges, List.mem_map] at h
  obtain ⟨w0, _, rfl⟩ := h
  rfl

theorem mem_phasePortSuccessors_owner {P N Q : ℕ} (T : Topology P N Q) {phase : Fin P}
    {node : Fin N} {pe : TPort P Q × TEdge} (h : pe ∈ phasePortSuccessors T phase node) :
    T.owner pe.1.port = node := by
  simp only [phasePortSuccessors, List.mem_flatMap, List.mem_filter, List.mem_finRange,
    true_and, decide_eq_true_eq] at h
  obtain ⟨p, hp, hin⟩ := h
  rw [mem_portWaitEdges_port hin, hp]

theorem successors_ports_toFinset {P N Q : ℕ} (T : Topology P N Q) (phase : Fin P)
    (node : Fin N) :
    ((phasePortSuccessors T phase node).map fun pe => pe.1.port).toFinset =
      Finset.univ.filter fun p => T.owner p = node := by
  ext x
  simp only [List.mem_toFinset, List.mem_map, Finset.mem_filter, Finset.mem_univ, true_and]
  constructor
  · rintro ⟨pe, hpe, rfl⟩
    exact mem_phasePortSuccessors_owner T hpe
  · intro hx
    refine ⟨(⟨phaseAdd phase 1, x⟩, ⟨(0 : ℤ) + 1, 0, 1⟩), ?_, rfl⟩
    simp only [phasePortSuccessors, List.mem_flatMap, List.mem_filter, List.mem_finRange,
      true_and, decide_eq_true_eq]
    refine ⟨x, hx, ?_⟩
    simp only [portWaitEdges, List.mem_map]
    exact ⟨0, List.mem_range.mpr phase.pos, rfl⟩

/-- C5: for every `numPaths` in `[1, 8]`, the candidate list the Router
stores for `(phase, node)` has pairwise-distinct port values, and its
length equals `min(numPaths, number of distinct ports among the
PhasePort successors)`, which equals `min(numPaths, number of ports
owned by the node)` because every owned port occurs as a successor. -/
theorem router_port_diversity {P N Q : ℕ} (T : Topology P N Q) (d : TPort P Q → ℤ)
    (approach : APPROACH) (numPaths : ℕ) (hK1 : 1 ≤ numPaths) (hK8 : numPaths ≤ 8)
    (phase : Fin P) (node : Fin N) :
    ((constructSolutionForEgress T d approach numPaths phase node).map
        PortInPhase.port).Nodup ∧
      (constructSolutionForEgress T d approach numPaths phase node).length =
        min numPaths
          (((phasePortSuccessors T phase node).map fun pe => pe.1.port).toFinset.card) ∧
      ((phasePortSuccessors T phase node).map fun pe => pe.1.port).toFinset.card =
        (Finset.univ.filter fun p => T.owner p = node).card := by
  refine ⟨?_, ?_, ?_⟩
  · have h := (greedySelect_ports numPaths (sortedNeighbours T d approach phase node) []).1
    have heq : (constructSolutionForEgress T d approach numPaths phase node).map
        PortInPhase.port =
        (selectedWithCost T d approach numPaths phase node).map fun c => c.1.port := by
      simp [constructSolutionForEgress, List.map_map]
    rw [heq]
    exact h
  · have hlen := greedySelect_length numPaths (by omega)
      (sortedNeighbours T d approach phase node) [] (by simp; omega)
    have h1 : (constructSolutionForEgress T d approach numPaths phase node).length =
        (greedySelect numPaths [] (sortedNeighbours T d approach phase node)).length := by
      simp [constructSolutionForEgress, selectedWithCost]
    have hperm : ((sortedNeighbours T d approach phase node).map fun c => c.1.port).Perm
        ((neighboursWithCost T d approach phase node).map fun c => c.1.port) :=
      (sortedNeighbours_perm T d approach phase node).map _
    have hfin : ((sortedNeighbours T d approach phase node).map fun c => c.1.port).toFinset =
        ((phasePortSuccessors T phase node).map fun pe => pe.1.port).toFinset := by
      rw [List.toFinset_eq_of_perm _ _ hperm]
      congr 1
      simp [neighboursWithCost, List.map_map]
    rw [h1, hlen, hfin]
    simp
  · rw [successors_ports_toFinset]

/-- C5 witness: the demonstration topology with two paths. -/
theorem router_port_diversity_witness :
    1 ≤ 2 ∧ 2 ≤ 8 ∧
      (((constructSolutionForEgress testTopology (fun _ => 0) .quickest 2 0 0).map
          PortInPhase.port).Nodup ∧
        (constructSolutionForEgress testTopology (fun _ => 0) .quickest 2 0 0).length =
          min 2 (((phasePortSuccessors testTopology 0 0).map fun pe =>
            pe.1.port).toFinset.card) ∧
        ((phasePortSuccessors testTopology 0 0).map fun pe => pe.1.port).toFinset.card =
          (Finset.univ.filter fun p => testTopology.owner p = 0).card) :=
  ⟨by norm_num, by norm_num,
    router_port_diversity testTopology (fun _ => 0) .quickest 2 (by norm_num) (by norm_num)
      0 0⟩

/-- C6: every stored candidate list is sorted by non-decreasing
candidate cost (`edgeCost + d`), and as long as the aggregated time and
hop components stay below `10000`, the `quickest` cost orders
lexicographically by `(time, hop)` and the `fewest_hops` cost by
`(hop, time)`. -/
theorem router_cost_ordering {P N Q : ℕ} (T : Topology P N Q) (d : TPort P Q → ℤ)
    (approach : APPROACH) (numPaths : ℕ) (phase : Fin P) (node : Fin N) :
    (selectedWithCost T d approach numPaths phase node).Pairwise (fun a b => a.2 ≤ b.2) ∧
      (∀ t1 h1 t2 h2 : ℤ, 0 ≤ t1 → t1 < 10000 → 0 ≤ h1 → h1 < 10000 →
        0 ≤ t2 → t2 < 10000 → 0 ≤ h2 → h2 < 10000 →
        (edgeCost .quickest ⟨t1, h1, 0⟩ ≤ edgeCost .quickest ⟨t2, h2, 0⟩ ↔
          (t1 < t2 ∨ (t1 = t2 ∧ h1 ≤ h2)))) ∧
      (∀ t1 h1 t2 h2 : ℤ, 0 ≤ t1 → t1 < 10000 → 0 ≤ h1 → h1 < 10000 →
        0 ≤ t2 → t2 < 10000 → 0 ≤ h2 → h2 < 10000 →
        (edgeCost .fewest_hops ⟨t1, h1, 0⟩ ≤ edgeCost .fewest_hops ⟨t2, h2, 0⟩ ↔
          (h1 < h2 ∨ (h1 = h2 ∧ t1 ≤ t2)))) := by
  refine ⟨?_, ?_, ?_⟩
  · exact (sortedNeighbours_sorted T d approach phase node).sublist
      (greedySelect_sublist numPaths (sortedNeighbours T d approach phase node) [])
  · intro t1 h1 t2 h2 ht1 ht1b hh1 hh1b ht2 ht2b hh2 hh2b
    simp only [edgeCost,
      if_neg (show ¬(APPROACH.quickest = APPROACH.fewest_hops) by decide)]
    omega
  · intro t1 h1 t2 h2 ht1 ht1b hh1 hh1b ht2 ht2b hh2 hh2b
    simp [edgeCost]
    omega

/-- C6 witness: concrete sortedness and a lexicographic comparison. -/
theorem router_cost_ordering_witness :
    (0 : ℤ) ≤ 3 ∧ (3 : ℤ) < 10000 ∧ (0 : ℤ) ≤ 4 ∧ (4 : ℤ) < 10000 ∧
      (0 : ℤ) ≤ 3 ∧ (3 : ℤ) < 10000 ∧ (0 : ℤ) ≤ 5 ∧ (5 : ℤ) < 10000 ∧
      (edgeCost .quickest ⟨3, 4, 0⟩ ≤ edgeCost .quickest ⟨3, 5, 0⟩ ↔
        ((3 : ℤ) < 3 ∨ ((3 : ℤ) = 3 ∧ (4 : ℤ) ≤ 5))) :=
  ⟨by norm_num, by norm_num, by norm_num, by norm_num, by norm_num, by norm_num,
    by norm_num, by norm_num,
    (router_cost_ordering testTopology (fun _ => 0) .quickest 2 0 0).2.1 3 4 3 5
      (by norm_num) (by norm_num) (by norm_num) (by norm_num) (by norm_num) (by norm_num)
      (by norm_num) (by norm_num)⟩

theorem getD_mem {α : Type} (l : List α) (i : ℕ) (d : α) (hd : d ∈ l) : l.getD i d ∈ l := by
  by_cases h : i < l.length
  · rw [List.getD_eq_getElem?_getD, List.getElem?_eq_getElem h]
    exact List.getElem_mem h
  · rw [List.getD_eq_getElem?_getD, List.getElem?_eq_none (le_of_not_lt h)]
    simpa using hd

theorem find?_getD_mem {α : Type} (l : List α) (p : α → Bool) (d : α) (hd : d ∈ l) :
    (l.find? p).getD d ∈ l := by
  cases hfind : l.find? p with
  | none => simpa using hd
  | some y => simpa using List.mem_of_find?_eq_some hfind

theorem findOwnedPort_owner {P N Q : ℕ} [NeZero Q] (T : Topology P N Q) (n : Fin N)
    (hown : ∃ p : Fin Q, T.owner p = n) : T.owner (findOwnedPort T n) = n := by
  obtain ⟨p, hp⟩ := hown
  rw [findOwnedPort]
  cases hfind : (List.finRange Q).find? fun q => T.owner q = n with
  | none =>
    exfalso
    have hq := List.find?_eq_none.mp hfind p (List.mem_finRange p)
    simp [hp] at hq
  | some q =>
    have hq := List.find?_some hfind
    simp only [Option.getD_some]
    simpa using hq

theorem mem_constructSolution_owner {P N Q : ℕ} (T : Topology P N Q) (d : TPort P Q → ℤ)
    (approach : APPROACH) (numPaths : ℕ) {phase : Fin P} {node : Fin N}
    {pip : PortInPhase P Q}
    (h : pip ∈ constructSolutionForEgress T d approach numPaths phase node) :
    T.owner pip.port = node := by
  obtain ⟨c, hc, rfl⟩ := List.mem_map.mp h
  have hsub : c ∈ sortedNeighbours T d approach phase node :=
    (greedySelect_sublist numPaths _ []).subset hc
  have hmem2 : c ∈ neighboursWithCost T d approach phase node :=
    (sortedNeighbours_perm T d approach phase node).mem_iff.mp hsub
  obtain ⟨pe, hpe, hc2⟩ := List.mem_map.mp hmem2
  have hfst : c.1 = pe.1 := by rw [← hc2]
  show T.owner c.1.port = node
  rw [hfst]
  exact mem_phasePortSuccessors_owner T hpe

theorem constructSolution_ne_nil {P N Q : ℕ} (T : Topology P N Q) (d : TPort P Q → ℤ)
    (approach : APPROACH) (numPaths : ℕ) (hK : 1 ≤ numPaths) (phase : Fin P) {node : Fin N}
    (hown : ∃ p : Fin Q, T.owner p = node) :
    constructSolutionForEgress T d approach numPaths phase node ≠ [] := by
  obtain ⟨p, hp⟩ := hown
  have hsucc : (⟨phaseAdd phase 1, p⟩, (⟨(0 : ℤ) + 1, 0, 1⟩ : TEdge)) ∈
      phasePortSuccessors T phase node := by
    simp only [phasePortSuccessors, List.mem_flatMap, List.mem_filter, List.mem_finRange,
      true_and, decide_eq_true_eq]
    refine ⟨p, hp, ?_⟩
    simp only [portWaitEdges, List.mem_map]
    exact ⟨0, List.mem_range.mpr phase.pos, rfl⟩
  have hneigh : neighboursWithCost T d approach phase node ≠ [] :=
    List.ne_nil_of_mem (List.mem_map_of_mem _ hsucc)
  have hsorted : sortedNeighbours T d approach phase node ≠ [] := by
    intro hnil
    have hlen := (sortedNeighbours_perm T d approach phase node).length_eq
    rw [hnil] at hlen
    exact hneigh (List.length_eq_zero.mp hlen.symm)
  have hsel : greedySelect numPaths [] (sortedNeighbours T d approach phase node) ≠ [] :=
    greedySelect_ne_nil numPaths hK _ hsorted
  intro hnil
  rw [constructSolutionForEgress] at hnil
  exact hsel (List.map_eq_nil_iff.mp hnil)

theorem rndGetChoice_mem {P N Q : ℕ} (sol : Fin P → Fin N → List (PortInPhase P Q))
    (r : ℕ) (i : Fin P) (n : Fin N) (hne : sol i n ≠ []) :
    ∃ pip ∈ sol i n, rndGetChoice sol r i n = some ⟨pip.port, pip.phase⟩ := by
  have h : rndGetChoice sol r i n =
      some ⟨((sol i n).getD (hash_bounded (rndHashInput i n r) (sol i n).length)
          ((sol i n).head hne)).port,
        ((sol i n).getD (hash_bounded (rndHashInput i n r) (sol i n).length)
          ((sol i n).head hne)).phase⟩ := by
    rw [rndGetChoice]
    simp only [dif_pos hne]
  exact ⟨_, getD_mem _ _ _ (List.head_mem hne), h⟩

theorem capGetChoice_mem {P N Q F : ℕ} (T : Topology P N Q)
    (sol : Fin P → Fin N → List (PortInPhase P Q)) (buffers : Fin P → Fin Q → Fin F → ℤ)
    (treshold : ℚ) (i : Fin P) (n : Fin N) (hne : sol i n ≠ []) :
    ∃ pip ∈ sol i n, capGetChoice T sol buffers treshold i n = some ⟨pip.port, pip.phase⟩ := by
  have h : capGetChoice T sol buffers treshold i n =
      some ⟨(((sol i n).find? fun pip =>
            decide (getTotalPortLoad T buffers pip.port < treshold)).getD
          ((sol i n).head hne)).port,
        (((sol i n).find? fun pip =>
            decide (getTotalPortLoad T buffers pip.port < treshold)).getD
          ((sol i n).head hne)).phase⟩ := by
    rw [capGetChoice]
    simp only [dif_pos hne]
  exact ⟨_, find?_getD_mem _ _ _ (List.head_mem hne), h⟩

theorem verifyScheduler_of_ownership {P N Q F : ℕ} (T : Topology P N Q)
    (choiceF : Fin P → Fin N → Fin F → ScheduleChoice P Q)
    (h : ∀ (i : Fin P) (n : Fin N) (f : Fin F), T.owner (choiceF i n f).port = n) :
    verifyScheduler T choiceF = true := by
  rw [verifyScheduler]
  simp only [List.all_eq_true]
  intro f _ i _ n _
  simp [h i n f]

/-- C1: under a well-formed reverse-Dijkstra predecessor map (each image
is a forward successor or the vertex itself), reachability of the
queried phase nodes, and every node owning at least one port, all three
scheduler variants return a choice whose port is owned by the queried
node; consequently `verifyScheduler()` returns true for any choice
function with that ownership property. -/
theorem scheduler_choice_ownership {P N Q F : ℕ} [NeZero Q] (T : Topology P N Q)
    (pred : TVertex P N Q → TVertex P N Q) (d : TPort P Q → ℤ) (approach : APPROACH)
    (numPaths : ℕ) (random_num : ℕ) (buffers : Fin P → Fin Q → Fin F → ℤ) (treshold : ℚ)
    (hK : 1 ≤ numPaths)
    (hpred : ∀ v, pred v = v ∨ HasEdge T v (pred v))
    (hreach : ∀ (i : Fin P) (n : Fin N), pred (.phaseNode i n) ≠ .phaseNode i n)
    (hown : ∀ n : Fin N, ∃ p : Fin Q, T.owner p = n) :
    (∀ (i : Fin P) (n : Fin N), ∃ c, fixedChoice T pred i n = some c ∧
        T.owner c.port = n) ∧
      (∀ (i : Fin P) (n : Fin N), ∃ c,
        rndGetChoice (constructSolutionForEgress T d approach numPaths) random_num i n =
          some c ∧ T.owner c.port = n) ∧
      (∀ (i : Fin P) (n : Fin N), ∃ c,
        capGetChoice T (constructSolutionForEgress T d approach numPaths) buffers treshold
            i n = some c ∧ T.owner c.port = n) ∧
      (∀ choiceF : Fin P → Fin N → Fin F → ScheduleChoice P Q,
        (∀ (i : Fin P) (n : Fin N) (f : Fin F), T.owner (choiceF i n f).port = n) →
          verifyScheduler T choiceF = true) := by
  refine ⟨?_, ?_, ?_, fun choiceF h => verifyScheduler_of_ownership T choiceF h⟩
  · intro i n
    rcases hpred (.phaseNode i n) with heq | hedge
    · exact absurd heq (hreach i n)
    · cases hp : pred (TVertex.phaseNode i n) with
      | node m =>
        refine ⟨⟨findOwnedPort T n, phaseAdd i 1⟩, ?_, findOwnedPort_owner T n (hown n)⟩
        rw [fixedChoice, hp]
      | phaseNode j m =>
        rw [hp] at hedge
        cases hedge
      | phasePort ph p =>
        rw [hp] at hedge
        cases hedge with
        | enqueue phase port w hw1 hw2 =>
          refine ⟨⟨p, phaseAdd i w⟩, ?_, rfl⟩
          rw [fixedChoice, hp]
  · intro i n
    have hne : constructSolutionForEgress T d approach numPaths i n ≠ [] :=
      constructSolution_ne_nil T d approach numPaths hK i (hown n)
    obtain ⟨pip, hmem, heq⟩ :=
      rndGetChoice_mem (constructSolutionForEgress T d approach numPaths) random_num i n hne
    exact ⟨⟨pip.port, pip.phase⟩, heq,
      mem_constructSolution_owner T d approach numPaths hmem⟩
  · intro i n
    have hne : constructSolutionForEgress T d approach numPaths i n ≠ [] :=
      constructSolution_ne_nil T d approach numPaths hK i (hown n)
    obtain ⟨pip, hmem, heq⟩ :=
      capGetChoice_mem T (constructSolutionForEgress T d approach numPaths) buffers treshold
        i n hne
    exact ⟨⟨pip.port, pip.phase⟩, heq,
      mem_constructSolution_owner T d approach numPaths hmem⟩

/-- C1 witness: the demonstration topology with the collector
predecessor map, two paths, the `quickest` policy and seed `123456`. -/
theorem scheduler_choice_ownership_witness :
    (1 ≤ 2) ∧
      (∀ v : TVertex 4 5 10, collectorPred v = v ∨ HasEdge testTopology v (collectorPred v)) ∧
      (∀ (i : Fin 4) (n : Fin 5),
        collectorPred (.phaseNode i n) ≠ (.phaseNode i n : TVertex 4 5 10)) ∧
      (∀ n : Fin 5, ∃ p : Fin 10, testTopology.owner p = n) ∧
      ((∀ (i : Fin 4) (n : Fin 5), ∃ c, fixedChoice testTopology collectorPred i n = some c ∧
          testTopology.owner c.port = n) ∧
        (∀ (i : Fin 4) (n : Fin 5), ∃ c,
          rndGetChoice (constructSolutionForEgress testTopology (fun _ => 0) .quickest 2)
            123456 i n = some c ∧ testTopology.owner c.port = n) ∧
        (∀ (i : Fin 4) (n : Fin 5), ∃ c,
          capGetChoice testTopology
              (constructSolutionForEgress testTopology (fun _ => 0) .quickest 2)
              (fun _ _ _ => (0 : ℤ) : Fin 4 → Fin 10 → Fin 1 → ℤ) (7 / 10) i n = some c ∧
            testTopology.owner c.port = n) ∧
        (∀ choiceF : Fin 4 → Fin 5 → Fin 1 → ScheduleChoice 4 10,
          (∀ (i : Fin 4) (n : Fin 5) (f : Fin 1),
              testTopology.owner (choiceF i n f).port = n) →
            verifyScheduler testTopology choiceF = true)) :=
  have hpred : ∀ v : TVertex 4 5 10,
      collectorPred v = v ∨ HasEdge testTopology v (collectorPred v) := fun v =>
    match v with
    | .node _ => Or.inl rfl
    | .phasePort _ _ => Or.inl rfl
    | .phaseNode φ n => Or.inr (HasEdge.collector φ n)
  have hreach : ∀ (i : Fin 4) (n : Fin 5),
      collectorPred (.phaseNode i n) ≠ (.phaseNode i n : TVertex 4 5 10) :=
    fun _ _ h => TVertex.noConfusion h
  have hown : ∀ n : Fin 5, ∃ p : Fin 10, testTopology.owner p = n := by decide
  ⟨by norm_num, hpred, hreach, hown,
    scheduler_choice_ownership testTopology collectorPred (fun _ => 0) .quickest 2 123456
      (fun _ _ _ => (0 : ℤ)) (7 / 10) (by norm_num) hpred hreach hown⟩

theorem totalPacketsBuffered_eq {P Q F : ℕ} (buf : Fin P → Fin Q → Fin F → ℤ) :
    totalPacketsBuffered buf = ∑ j : Fin P, ∑ p : Fin Q, ∑ f : Fin F, buf j p f := by
  simp only [totalPacketsBuffered, totalPortBuffered, portBuffered]
  exact Finset.sum_comm

theorem sum_choice_ite {P Q : ℕ} (c : ScheduleChoice P Q) (A : ℤ) :
    (∑ j : Fin P, ∑ p : Fin Q, if c = (⟨p, j⟩ : ScheduleChoice P Q) then A else 0) = A := by
  cases c with
  | mk cp cph =>
    have hinner : ∀ j : Fin P, (∑ p : Fin Q,
        if (⟨cp, cph⟩ : ScheduleChoice P Q) = ⟨p, j⟩ then A else 0) =
        if cph = j then A else 0 := by
      intro j
      simp only [ScheduleChoice.mk.injEq, ite_and]
      rw [Finset.sum_ite_eq]
      simp
    rw [Finset.sum_congr rfl fun j _ => hinner j, Finset.sum_ite_eq]
    simp

theorem sum_ite_prop {ι : Type} (s : Finset ι) (A : Prop) [Decidable A] (g : ι → ℤ) :
    (∑ x ∈ s, if A then g x else 0) = if A then ∑ x ∈ s, g x else 0 := by
  by_cases hA : A <;> simp [hA]

theorem sum_sentArr {P N Q F : ℕ} (T : Topology P N Q) (buf : Fin P → Fin Q → Fin F → ℤ)
    (i : Fin P) :
    (∑ j : Fin P, ∑ p : Fin Q, ∑ f : Fin F, sentArr T buf i j p f) =
      ∑ p : Fin Q, ∑ f : Fin F, sending T buf i p f := by
  simp only [sentArr]
  rw [Finset.sum_eq_single_of_mem i (Finset.mem_univ i)]
  · simp
  · intro j _ hj
    apply Finset.sum_eq_zero
    intro p _
    apply Finset.sum_eq_zero
    intro f _
    rw [if_neg hj]

theorem sum_ingressAdd {P N Q F : ℕ} (flows : Fin F → Flow N)
    (choice : Fin P → Fin N → Fin F → ScheduleChoice P Q) (i : Fin P) :
    (∑ j : Fin P, ∑ p : Fin Q, ∑ f : Fin F,
        if choice i (flows f).ingress f = (⟨p, j⟩ : ScheduleChoice P Q) then (flows f).amount
        else 0) = ∑ f : Fin F, (flows f).amount := by
  calc (∑ j : Fin P, ∑ p : Fin Q, ∑ f : Fin F,
      if choice i (flows f).ingress f = (⟨p, j⟩ : ScheduleChoice P Q) then (flows f).amount
      else 0)
      = ∑ j : Fin P, ∑ f : Fin F, ∑ p : Fin Q,
        if choice i (flows f).ingress f = (⟨p, j⟩ : ScheduleChoice P Q) then (flows f).amount
        else 0 := Finset.sum_congr rfl fun j _ => Finset.sum_comm
    _ = ∑ f : Fin F, ∑ j : Fin P, ∑ p : Fin Q,
        if choice i (flows f).ingress f = (⟨p, j⟩ : ScheduleChoice P Q) then (flows f).amount
        else 0 := Finset.sum_comm
    _ = ∑ f : Fin F, (flows f).amount :=
        Finset.sum_congr rfl fun f _ => sum_choice_ite _ _

theorem sum_recvArr {P N Q F : ℕ} (T : Topology P N Q) (flows : Fin F → Flow N)
    (choice : Fin P → Fin N → Fin F → ScheduleChoice P Q)
    (buf : Fin P → Fin Q → Fin F → ℤ) (i : Fin P) :
    (∑ j : Fin P, ∑ q : Fin Q, ∑ f : Fin F, recvArr T flows choice buf i j q f) =
      ∑ f : Fin F, ∑ p ∈ Finset.univ.filter (fun p => T.target i p ≠ (flows f).egress),
        sending T buf i p f := by
  have hstep : ∀ (j : Fin P) (q : Fin Q) (f : Fin F),
      recvArr T flows choice buf i j q f =
      ∑ pSender : Fin Q, if T.target i pSender ≠ (flows f).egress then
          (if choice i (T.target i pSender) f = (⟨q, j⟩ : ScheduleChoice P Q) then
            sending T buf i pSender f else 0) else 0 := by
    intro j q f
    rw [recvArr, Finset.sum_filter]
    apply Finset.sum_congr rfl
    intro p _
    rw [ite_and]
  calc (∑ j : Fin P, ∑ q : Fin Q, ∑ f : Fin F, recvArr T flows choice buf i j q f)
      = ∑ j : Fin P, ∑ q : Fin Q, ∑ f : Fin F, ∑ pS : Fin Q,
          if T.target i pS ≠ (flows f).egress then
            (if choice i (T.target i pS) f = (⟨q, j⟩ : ScheduleChoice P Q) then
              sending T buf i pS f else 0) else 0 :=
        Finset.sum_congr rfl fun j _ => Finset.sum_congr rfl fun q _ =>
          Finset.sum_congr rfl fun f _ => hstep j q f
    _ = ∑ j : Fin P, ∑ f : Fin F, ∑ q : Fin Q, ∑ pS : Fin Q,
          if T.target i pS ≠ (flows f).egress then
            (if choice i (T.target i pS) f = (⟨q, j⟩ : ScheduleChoice P Q) then
              sending T buf i pS f else 0) else 0 :=
        Finset.sum_congr rfl fun j _ => Finset.sum_comm
    _ = ∑ f : Fin F, ∑ j : Fin P, ∑ q : Fin Q, ∑ pS : Fin Q,
          if T.target i pS ≠ (flows f).egress then
            (if choice i (T.target i pS) f = (⟨q, j⟩ : ScheduleChoice P Q) then
              sending T buf i pS f else 0) else 0 := Finset.sum_comm
    _ = ∑ f : Fin F, ∑ pS : Fin Q, ∑ j : Fin P, ∑ q : Fin Q,
          if T.target i pS ≠ (flows f).egress then
            (if choice i (T.target i pS) f = (⟨q, j⟩ : ScheduleChoice P Q) then
              sending T buf i pS f else 0) else 0 := by
        refine Finset.sum_congr rfl fun f _ => ?_
        calc (∑ j : Fin P, ∑ q : Fin Q, ∑ pS : Fin Q,
            if T.target i pS ≠ (flows f).egress then
              (if choice i (T.target i pS) f = (⟨q, j⟩ : ScheduleChoice P Q) then
                sending T buf i pS f else 0) else 0)
            = ∑ j : Fin P, ∑ pS : Fin Q, ∑ q : Fin Q,
              if T.target i pS ≠ (flows f).egress then
                (if choice i (T.target i pS) f = (⟨q, j⟩ : ScheduleChoice P Q) then
                  sending T buf i pS f else 0) else 0 :=
            Finset.sum_congr rfl fun j _ => Finset.sum_comm
          _ = ∑ pS : Fin Q, ∑ j : Fin P, ∑ q : Fin Q,
              if T.target i pS ≠ (flows f).egress then
                (if choice i (T.target i pS) f = (⟨q, j⟩ : ScheduleChoice P Q) then
                  sending T buf i pS f else 0) else 0 := Finset.sum_comm
    _ = ∑ f : Fin F, ∑ pS : Fin Q,
          if T.target i pS ≠ (flows f).egress then sending T buf i pS f else 0 := by
        refine Finset.sum_congr rfl fun f _ => Finset.sum_congr rfl fun pS _ => ?_
        rw [show (∑ j : Fin P, ∑ q : Fin Q,
            if T.target i pS ≠ (flows f).egress then
              (if choice i (T.target i pS) f = (⟨q, j⟩ : ScheduleChoice P Q) then
                sending T buf i pS f else 0) else 0) =
            ∑ j : Fin P, if T.target i pS ≠ (flows f).egress then
              (∑ q : Fin Q, if choice i (T.target i pS) f = (⟨q, j⟩ : ScheduleChoice P Q) then
                sending T buf i pS f else 0) else 0 from
          Finset.sum_congr rfl fun j _ => sum_ite_prop _ _ _]
        rw [sum_ite_prop]
        by_cases hA : T.target i pS ≠ (flows f).egress
        · rw [if_pos hA, if_pos hA]
          exact sum_choice_ite _ _
        · rw [if_neg hA, if_neg hA]
    _ = ∑ f : Fin F, ∑ p ∈ Finset.univ.filter (fun p => T.target i p ≠ (flows f).egress),
          sending T buf i p f := by
        refine Finset.sum_congr rfl fun f _ => ?_
        rw [Finset.sum_filter]

/-- C2: one `simulatePhase` step conserves packets up to the boundary:
the total buffered packet count changes by exactly the injected ingress
amount minus what was delivered at egress (packets sent to their flow's
egress node are not re-buffered). -/
theorem simulatePhase_conservation {P N Q F : ℕ} (T : Topology P N Q)
    (flows : Fin F → Flow N) (choice : Fin P → Fin N → Fin F → ScheduleChoice P Q)
    (s : SimState P Q F) :
    totalPacketsBuffered (simulatePhase T flows choice s).buf =
      totalPacketsBuffered s.buf + (∑ f, (flows f).amount) -
        ∑ f, ∑ p ∈ Finset.univ.filter
            (fun p => T.target s.currentPhase p = (flows f).egress),
          sending T s.buf s.currentPhase p f := by
  rw [totalPacketsBuffered_eq, totalPacketsBuffered_eq]
  have hbuf : (simulatePhase T flows choice s).buf = fun j p f =>
      s.buf j p f + (recvArr T flows choice s.buf s.currentPhase j p f -
        sentArr T s.buf s.currentPhase j p f) +
      (if choice s.currentPhase (flows f).ingress f = (⟨p, j⟩ : ScheduleChoice P Q) then
        (flows f).amount else 0) := rfl
  rw [hbuf]
  simp only [Finset.sum_add_distrib, Finset.sum_sub_distrib]
  rw [sum_sentArr, sum_recvArr, sum_ingressAdd]
  have hsplit : (∑ p : Fin Q, ∑ f : Fin F, sending T s.buf s.currentPhase p f) =
      (∑ f : Fin F, ∑ p ∈ Finset.univ.filter
          (fun p => T.target s.currentPhase p = (flows f).egress),
        sending T s.buf s.currentPhase p f) +
      ∑ f : Fin F, ∑ p ∈ Finset.univ.filter
          (fun p => T.target s.currentPhase p ≠ (flows f).egress),
        sending T s.buf s.currentPhase p f := by
    rw [Finset.sum_comm, ← Finset.sum_add_distrib]
    refine Finset.sum_congr rfl fun f _ => ?_
    simp only [ne_eq]
    exact (Finset.sum_filter_add_sum_filter_not Finset.univ _ _).symm
  rw [hsplit]
  ring

theorem cround_nonneg (q : ℚ) (hq : 0 ≤ q) : cround q = ⌊q + 1 / 2⌋ := by
  rw [cround, if_neg (not_lt.mpr hq)]

/-- C3 counterexample: with two flows of one packet each on a port of
bandwidth 1, each flow sends `round(1 · 1/2) = 1`, so the port emits 2
packets while `min(bandwidth, portBuffered) = 1` — the claimed
inequality `Σ_f sent ≤ min(bandwidth, B)` fails on the code. -/
theorem fair_share_counterexample :
    ¬ (∑ f : Fin 2, sending unitTopology
          (fun _ _ _ => (1 : ℤ) : Fin 1 → Fin 1 → Fin 2 → ℤ) 0 0 f ≤
        min (unitTopology.bandwidth 0)
          (portBuffered (fun _ _ _ => (1 : ℤ) : Fin 1 → Fin 1 → Fin 2 → ℤ) 0 0)) := by
  have hpb : portBuffered (fun _ _ _ => (1 : ℤ) : Fin 1 → Fin 1 → Fin 2 → ℤ) 0 0 = 2 := by
    simp [portBuffered]
  have hsend : ∀ f : Fin 2, sending unitTopology
      (fun _ _ _ => (1 : ℤ) : Fin 1 → Fin 1 → Fin 2 → ℤ) 0 0 f = 1 := by
    intro f
    rw [sending]
    simp only [hpb]
    rw [if_neg (by norm_num)]
    have hval : ((1 : ℤ) : ℚ) * (((min (unitTopology.bandwidth 0) 2 : ℤ) : ℚ) / ((2 : ℤ) : ℚ)) =
        1 / 2 := by
      norm_num [unitTopology]
    rw [hval, cround_nonneg _ (by norm_num)]
    norm_num
  intro hle
  rw [Fin.sum_univ_two, hsend 0, hsend 1, hpb] at hle
  norm_num [unitTopology] at hle

/-- C3 (amended): on non-negative buffers and bandwidth and at least one
flow, the per-port total `Σ_f sending(i, p, f)` differs from
`min(bandwidth[p], portBuffered(i, p))` by at most `F − 1` packets (it
may exceed it; rounding each fair share to nearest can overshoot). -/
theorem fair_share_rounding {P N Q F : ℕ} (T : Topology P N Q)
    (buf : Fin P → Fin Q → Fin F → ℤ) (i : Fin P) (p : Fin Q)
    (hF : 1 ≤ F) (hbw : 0 ≤ T.bandwidth p) (hbuf : ∀ f, 0 ≤ buf i p f) :
    |(∑ f, sending T buf i p f) - min (T.bandwidth p) (portBuffered buf i p)| ≤
      (F : ℤ) - 1 := by
  set B := portBuffered buf i p with hB
  have hB0 : 0 ≤ B := Finset.sum_nonneg fun f _ => hbuf f
  by_cases hBz : B = 0
  · have hsend : ∀ f, sending T buf i p f = 0 := by
      intro f
      rw [sending]
      simp only [← hB, if_pos hBz]
    have hmin : min (T.bandwidth p) B = 0 := by
      rw [hBz]
      exact min_eq_right hbw
    rw [Finset.sum_congr rfl fun f _ => hsend f, hmin]
    simp
    omega
  · have hBpos : 0 < B := lt_of_le_of_ne hB0 (Ne.symm hBz)
    set M := min (T.bandwidth p) B with hM
    have hM0 : 0 ≤ M := le_min hbw hB0
    have hBq : (0 : ℚ) < (B : ℚ) := by exact_mod_cast hBpos
    set x : Fin F → ℚ := fun f => (buf i p f : ℚ) * ((M : ℚ) / (B : ℚ)) with hx
    have hxf : ∀ f, 0 ≤ x f := fun f =>
      mul_nonneg (by exact_mod_cast hbuf f)
        (div_nonneg (by exact_mod_cast hM0) (le_of_lt hBq))
    have hsend : ∀ f, sending T buf i p f = ⌊x f + 1 / 2⌋ := by
      intro f
      rw [sending]
      simp only [← hB, ← hM]
      rw [if_neg hBz, cround_nonneg _ (hxf f)]
    have hsum : (∑ f, x f) = (M : ℚ) := by
      simp only [hx]
      rw [← Finset.sum_mul]
      have hcast : (∑ f, (buf i p f : ℚ)) = (B : ℚ) := by
        rw [hB, portBuffered]
        push_cast
        rfl
      rw [hcast, mul_comm, div_mul_cancel₀ _ (ne_of_gt hBq)]
    have hSup : ((∑ f, sending T buf i p f : ℤ) : ℚ) ≤ (M : ℚ) + (F : ℚ) / 2 := by
      push_cast
      calc (∑ f, ((sending T buf i p f : ℤ) : ℚ))
          = ∑ f, ((⌊x f + 1 / 2⌋ : ℤ) : ℚ) :=
            Finset.sum_congr rfl fun f _ => by rw [hsend f]
        _ ≤ ∑ f, (x f + 1 / 2) := Finset.sum_le_sum fun f _ => Int.floor_le _
        _ = (M : ℚ) + (F : ℚ) / 2 := by
            rw [Finset.sum_add_distrib, hsum]
            congr 1
            rw [Finset.sum_const, Finset.card_univ, Fintype.card_fin, nsmul_eq_mul]
            ring
    have hSdown : (M : ℚ) - (F : ℚ) / 2 < ((∑ f, sending T buf i p f : ℤ) : ℚ) := by
      push_cast
      have hne : (Finset.univ : Finset (Fin F)).Nonempty := by
        refine ⟨⟨0, ?_⟩, Finset.mem_univ _⟩
        omega
      calc (M : ℚ) - (F : ℚ) / 2 = ∑ f, (x f - 1 / 2) := by
            rw [Finset.sum_sub_distrib, hsum]
            congr 1
            rw [Finset.sum_const, Finset.card_univ, Fintype.card_fin, nsmul_eq_mul]
            ring
        _ < ∑ f, ((⌊x f + 1 / 2⌋ : ℤ) : ℚ) := by
            refine Finset.sum_lt_sum_of_nonempty hne fun f _ => ?_
            have hlt := Int.lt_floor_add_one (x f + 1 / 2)
            have hle := Int.floor_le (x f + 1 / 2)
            linarith [Int.lt_floor_add_one (x f + 1 / 2)]
        _ = ∑ f, ((sending T buf i p f : ℤ) : ℚ) :=
            Finset.sum_congr rfl fun f _ => by rw [hsend f]
    have h2up : 2 * ((∑ f, sending T buf i p f) - M) ≤ (F : ℤ) := by
      have hq : ((2 * ((∑ f, sending T buf i p f) - M) : ℤ) : ℚ) ≤ ((F : ℤ) : ℚ) := by
        push_cast
        push_cast at hSup
        linarith
      exact_mod_cast hq
    have h2down : -((F : ℤ) : ℤ) < 2 * ((∑ f, sending T buf i p f) - M) := by
      have hq : ((-(F : ℤ) : ℤ) : ℚ) < ((2 * ((∑ f, sending T buf i p f) - M) : ℤ) : ℚ) := by
        push_cast
        push_cast at hSdown
        linarith
      exact_mod_cast hq
    rw [abs_le]
    omega

/-- C3 witness: the counterexample instance satisfies the amended
bound: `|2 − 1| = 1 ≤ F − 1 = 1`. -/
theorem fair_share_rounding_witness :
    (1 ≤ 2) ∧ (0 : ℤ) ≤ unitTopology.bandwidth 0 ∧
      (∀ f : Fin 2, (0 : ℤ) ≤ (fun _ _ _ => (1 : ℤ) : Fin 1 → Fin 1 → Fin 2 → ℤ) 0 0 f) ∧
      |(∑ f : Fin 2, sending unitTopology
            (fun _ _ _ => (1 : ℤ) : Fin 1 → Fin 1 → Fin 2 → ℤ) 0 0 f) -
          min (unitTopology.bandwidth 0)
            (portBuffered (fun _ _ _ => (1 : ℤ) : Fin 1 → Fin 1 → Fin 2 → ℤ) 0 0)| ≤
        (2 : ℤ) - 1 :=
  ⟨by norm_num, by norm_num [unitTopology], fun f => by norm_num,
    fair_share_rounding unitTopology (fun _ _ _ => (1 : ℤ)) 0 0 (by norm_num)
      (by norm_num [unitTopology]) (fun f => by norm_num)⟩

end Rossa
